import Mathlib

/-!
Verification of the signaltrain audio-effects engine.

This file gives a shallow embedding, over `ℚ` (and, for claims that need
transcendental functions, over an arbitrary `LinearOrderedField` with the
floating-point collaborators `sin`, `exp`, `log10`-based dB conversion,
`10 ^ ·` and the scipy `butter` coefficients passed as function parameters),
of the knob-mapping utilities, the effect table, the `int2knobs` enumeration,
the two compressors, the `echo` effect, the pluck-family generators, the
`Denoise` effect, the time-align index computation and the `chopnstack`
chunking pair, together with theorems settling the frozen claims.

Conventions for modelling Python/numpy behaviour:
  * a raised exception (assertion failure, numpy shape mismatch, negative
    pad width, `np.split` on an empty array) is modelled as `none`;
  * a floating-point NaN produced by `0/0` (division by a zero knob range)
    is modelled as `none` of an `Option`-valued map;
  * `int(...)` on a float is truncation toward zero (`pyInt`);
  * numpy 1-D broadcasting (equal lengths elementwise, a length-1 operand
    stretched, anything else an error) is `bcOp`.
-/

namespace SignalTrain

/-! ### Knob mapping (helpers/audio.py `Effect.knobs_wc`, datasets.py normalization) -/

/-- Per-knob normalized→physical map, from `Effect.knobs_wc`:
`knob_ranges[:,0] + (knobs_nn+0.5)*(knob_ranges[:,1]-knob_ranges[:,0])`. -/
def knob_wc1 (r : ℚ × ℚ) (nn : ℚ) : ℚ :=
  r.1 + (nn + 1/2) * (r.2 - r.1)

/-- Per-knob physical→normalized map, from datasets.py
`knobs_nn = (knobs_wc - kr[:,0])/(kr[:,1]-kr[:,0]) - 0.5`.
A zero-width range makes the float code produce NaN (`0/0`); we model the
NaN result as `none`. -/
def knob_nn1 (r : ℚ × ℚ) (wc : ℚ) : Option ℚ :=
  if r.2 - r.1 = 0 then none else some ((wc - r.1) / (r.2 - r.1) - 1/2)

/-- numpy 1-D broadcasting for a binary elementwise operation: equal lengths
are combined elementwise, a length-1 operand is stretched, any other shape
combination raises a `ValueError` (modelled as `none`). -/
def bcOp (f : ℚ → ℚ → ℚ) (a b : List ℚ) : Option (List ℚ) :=
  if a.length = b.length then some (List.zipWith f a b)
  else
    match a, b with
    | [x], bs => some (bs.map (fun y => f x y))
    | as, [y] => some (as.map (fun x => f x y))
    | _, _ => none

/-- Vectorized `Effect.knobs_wc` with numpy broadcast semantics:
`ranges[:,0] + (nn + 0.5) * (ranges[:,1] - ranges[:,0])`. -/
def knobs_wc (ranges : List (ℚ × ℚ)) (nn : List ℚ) : Option (List ℚ) :=
  (bcOp (fun x y => x * y) (nn.map (fun v => v + 1/2))
      (List.zipWith (fun M m => M - m) (ranges.map Prod.snd) (ranges.map Prod.fst))).bind
    (fun prod => bcOp (fun x y => x + y) (ranges.map Prod.fst) prod)

/-! ### The declared effects (helpers/audio.py classes) -/

/-- Descriptor of one effect: its name, ordered knob `[min,max]` ranges in
world coordinates, and the `is_inverse` flag. -/
structure EffectDesc where
  name : String
  ranges : List (ℚ × ℚ)
  is_inverse : Bool
deriving DecidableEq, Repr

def compressorE : EffectDesc := ⟨"Compressor", [(-30, 0), (1, 5), (10, 2048)], false⟩

def compressor4cE : EffectDesc :=
  ⟨"Compressor_4c", [(-30, 0), (1, 5), (1/1000, 1/25), (1/1000, 1/25)], false⟩

def echoE : EffectDesc := ⟨"Echo", [(400, 400), (2/5, 1), (2, 2)], false⟩

def pitchShifterE : EffectDesc := ⟨"PitchShifter", [(-12, 12)], false⟩

def denoiseE : EffectDesc := ⟨"Denoise", [(1/100, 1/2)], true⟩

def timeAlignE : EffectDesc := ⟨"TimeAlign", [(1/1000, 1/2)], true⟩

def lowPassE : EffectDesc := ⟨"LowPass", [(10, 2000)], false⟩

/-- All concrete effects declared in helpers/audio.py. -/
def allEffects : List EffectDesc :=
  [compressorE, compressor4cE, echoE, pitchShifterE, denoiseE, timeAlignE, lowPassE]

/-! ### `int2knobs` (helpers/audio.py) -/

/-- The loop body of `int2knobs`: iterates `i` from `nk-1` down to `0`,
taking `setting = idx // sp**i` for the knob at position `ik = nk-1-i`
(so the head of the remaining range list is paired with `sp ^ rest.length`),
appending `min + (max-min)/(sp-1) * setting`, and continuing with
`idx - setting * sp**i = idx % sp**i`. -/
def int2knobsLoop (sp : ℕ) : List (ℚ × ℚ) → ℕ → List ℚ
  | [], _ => []
  | r :: rest, idx =>
    let spPow := sp ^ rest.length
    let setting := idx / spPow
    (r.1 + (r.2 - r.1) / ((sp : ℚ) - 1) * (setting : ℚ)) :: int2knobsLoop sp rest (idx % spPow)

/-- `int2knobs(idx, knob_ranges, settings_per)`; the leading
`assert idx < sp**nk` is modelled by returning `none` when it fails. -/
def int2knobs (idx : ℕ) (knob_ranges : List (ℚ × ℚ)) (settings_per : ℕ) : Option (List ℚ) :=
  if idx < settings_per ^ knob_ranges.length then
    some (int2knobsLoop settings_per knob_ranges idx)
  else none

/-- The base-`sp` digit of `idx` assigned to knob `j` of `nk` (little-endian:
knob `nk-1` gets the least-significant digit). -/
def int2knobsDigit (sp idx nk j : ℕ) : ℕ :=
  idx / sp ^ (nk - 1 - j) % sp

/-! ### Time-align event placement (signaltrain/audio.py `ta_oneproc`) -/

/-- Python `int(...)` on a float: truncation toward zero. -/
def pyInt (q : ℚ) : ℤ :=
  if 0 ≤ q then ⌊q⌋ else ⌈q⌉

/-- `grid_index = int(eventnum*event_len) + int(chunk_size/2)`. -/
def ta_grid_index (chunk_size event_len eventnum : ℕ) : ℤ :=
  (eventnum * event_len + chunk_size / 2 : ℕ)

/-- `random_shift = int((event_len/5) * (2*np.random.random()-1))`, with the
uniform draw `j` passed explicitly. -/
def ta_random_shift (event_len : ℕ) (j : ℚ) : ℤ :=
  pyInt ((event_len : ℚ) / 5 * (2 * j - 1))

/-- `input_index = grid_index + random_shift` (independent of `strength`). -/
def ta_input_index (chunk_size event_len eventnum : ℕ) (j : ℚ) : ℤ :=
  ta_grid_index chunk_size event_len eventnum + ta_random_shift event_len j

/-- `target_index = int(strength*grid_index + (1.0-strength)*input_index)`. -/
def ta_target_index (chunk_size event_len eventnum : ℕ) (strength j : ℚ) : ℤ :=
  pyInt (strength * (ta_grid_index chunk_size event_len eventnum : ℚ) +
    (1 - strength) * (ta_input_index chunk_size event_len eventnum j : ℚ))

/-! ### `chopnstack` / `inv_chopnstack` (signaltrain/audio.py) -/

/-- `np.split(buffer, n)` into `n` equal rows of `size` samples each. -/
def splitRows (size : ℕ) : ℕ → List ℚ → List (List ℚ)
  | 0, _ => []
  | m + 1, l => l.take size :: splitRows size m (l.drop size)

/-- `chopnstack(sig, size)`: `n = ceil(len/size)` rows, the signal zero-padded
at the tail into an `n*size` buffer, split into rows.  An empty signal makes
`np.split(buffer, 0)` raise, and `size = 0` is a zero division; both are
modelled as `none`. -/
def chopnstack (sig : List ℚ) (size : ℕ) : Option (List (List ℚ)) :=
  if sig.length = 0 ∨ size = 0 then none
  else
    let n := (sig.length + size - 1) / size
    let buffer := sig ++ List.replicate (n * size - sig.length) 0
    some (splitRows size n buffer)

/-- `inv_chopnstack(stack, orig_len)`: flatten, and truncate to `orig_len`
when one is given. -/
def inv_chopnstack (stack : List (List ℚ)) (orig_len : Option ℕ) : List ℚ :=
  match orig_len with
  | none => stack.flatten
  | some L => stack.flatten.take L

/-! ### `echo` (helpers/audio.py) -/

/-- `np.pad(x, (d, 0), mode='constant')`: zero-pad `d` samples at the head. -/
def npPadHead (x : List ℚ) (d : ℕ) : List ℚ :=
  List.replicate d 0 ++ x

/-- Python slice `a[0:-d]`.  For `d = 0` the slice is `a[0:0] = []` (the
`-0 = 0` pitfall of the source); for `d > 0` it drops the last `d` items. -/
def pySliceToNeg (a : List ℚ) (d : ℕ) : List ℚ :=
  if d = 0 then [] else a.take (a.length - d)

/-- One echo tap: `delay_length = (i+1) * delay_samples`,
`delay_length_int = int(floor(delay_length))`, `diff` its fractional part,
`x_delayed = (1-diff)*pad(x,(dli,0))[0:-dli] + diff*pad(x,(dli+1,0))[0:-(dli+1)]`.
A negative floor makes `np.pad` raise (`none`); mismatched slice lengths make
the numpy addition raise (`bcOp` gives `none`). -/
def echoTap (x : List ℚ) (delay_samples : ℚ) (k : ℕ) : Option (List ℚ) :=
  if ⌊(k : ℚ) * delay_samples⌋ < 0 then none
  else
    bcOp (fun a b => a + b)
      ((pySliceToNeg (npPadHead x ⌊(k : ℚ) * delay_samples⌋.toNat)
          ⌊(k : ℚ) * delay_samples⌋.toNat).map
        (fun v => (1 - ((k : ℚ) * delay_samples - (⌊(k : ℚ) * delay_samples⌋.toNat : ℚ))) * v))
      ((pySliceToNeg (npPadHead x (⌊(k : ℚ) * delay_samples⌋.toNat + 1))
          (⌊(k : ℚ) * delay_samples⌋.toNat + 1)).map
        (fun v => ((k : ℚ) * delay_samples - (⌊(k : ℚ) * delay_samples⌋.toNat : ℚ)) * v))

/-- `echo(x, delay_samples, ratio, echoes)`: start from a copy of `x` and
accumulate `ratio^(i+1) * x_delayed` for `i = 0 .. echoes-1`; a raised
exception anywhere in the loop propagates as `none`. -/
def echo (x : List ℚ) (delay_samples ratio : ℚ) (echoes : ℕ) : Option (List ℚ) :=
  (List.range echoes).foldl
    (fun acc i => acc.bind (fun y =>
      (echoTap x delay_samples (i + 1)).bind (fun xd =>
        bcOp (fun a b => a + b) y (xd.map (fun v => ratio ^ (i + 1) * v)))))
    (some x)

/-- Modelled from the claim: delaying by `d` samples with zero-padding at the
head, keeping the original length. -/
def shiftZero (x : List ℚ) (d : ℕ) : List ℚ :=
  (List.replicate d 0 ++ x).take x.length

/-- Modelled from the claim: the output is `x` plus, for each `k = 1..E`,
`ratio^k` times the linear blend
`(1-frac) * shift_(floor(k*ds)) x + frac * shift_(floor(k*ds)+1) x`. -/
def echoSpec (x : List ℚ) (delay_samples ratio : ℚ) (echoes : ℕ) : List ℚ :=
  (List.range echoes).foldl
    (fun y i =>
      let k : ℕ := i + 1
      let dl := (k : ℚ) * delay_samples
      let frac := dl - (⌊dl⌋ : ℚ)
      List.zipWith (fun a b => a + b) y
        ((List.zipWith (fun a b => (1 - frac) * a + frac * b)
          (shiftZero x ⌊dl⌋.toNat) (shiftZero x (⌊dl⌋.toNat + 1))).map
          (fun v => ratio ^ k * v)))
    x

/-! ### Compressors (helpers/audio.py `compressor`, `compressor_new_fast`)

The floating-point collaborators are passed as parameters:
`dBf` stands for `v ↦ 20*log10(|v| + eps)`, `pow10` for `e ↦ 10**e`, and
`(b0, b1, a1)` for the first-order Butterworth coefficients returned by
`scipy.signal.butter(1, 1/attack)` (normalized so the leading denominator
coefficient is 1).  Everything else — the `lfilter` recursion with the
`lfilter_zi` steady-state initial condition, the static compression curve,
the attack/release smoothing and the gain application — is embedded
concretely. -/

section Compressors

variable {α : Type} [LinearOrderedField α]

/-- `scipy.signal.lfilter` for a first-order section in direct form II
transposed: `y[n] = b0*x[n] + z[n-1]`, `z[n] = b1*x[n] - a1*y[n]`, with
initial state `z`. -/
def lfilter1 (b0 b1 a1 : α) : α → List α → List α
  | _, [] => []
  | z, x :: xs =>
    let y := b0 * x + z
    y :: lfilter1 b0 b1 a1 (b1 * x - a1 * y) xs

/-- `scipy.signal.lfilter_zi` for a first-order section: the steady state
of the unit-step response, `(b1 - a1*b0)/(1 + a1)`. -/
def lfilter_zi1 (b0 b1 a1 : α) : α := (b1 - a1 * b0) / (1 + a1)

/-- The smoothed input envelope of `compressor`:
`in_env, _ = lfilter(b, a, dB, zi=zi*dB[0])` applied to
`dB = 20*log10(|x| + 1e-6)` (the map `dBf`). -/
def comp_env (dBf : α → α) (b0 b1 a1 : α) (x : List α) : List α :=
  lfilter1 b0 b1 a1 (lfilter_zi1 b0 b1 a1 * (x.map dBf).headD 0) (x.map dBf)

/-- `compressor(x, thresh, ratio, attack)`: downward compression of the
smoothed envelope above `thresh` with slope `1/ratio`, converted back to a
linear gain `10**((out_env-in_env)/20)` and applied to `x`. -/
def compressor (dBf pow10 : α → α) (b0 b1 a1 : α) (x : List α) (thresh ratio : α) :
    List α :=
  List.zipWith (fun xi g => xi * g) x
    (List.zipWith (fun o i => pow10 ((o - i) / 20))
      ((comp_env dBf b0 b1 a1 x).map
        (fun e => if thresh < e then thresh + (e - thresh) / ratio else e))
      (comp_env dBf b0 b1 a1 x))

/-- `my_clip_min(x, clip_min)`. -/
def my_clip_min (x : List α) (m : α) : List α :=
  x.map (fun v => if v < m then m else v)

/-- The uni-polar dB signal of `compressor_new_fast`:
`x_dB = my_clip_min(20*np.log10(np.abs(x) + 1e-8), -96)` (with `dBf` the
`20*log10(|·| + 1e-8)` map). -/
def comp2_xdB (dBf : α → α) (x : List α) : List α :=
  my_clip_min (x.map dBf) (-96)

/-- The static characteristic of `compressor_new_fast`:
`gainChange_dB[i] = thresh + (x_dB[i]-thresh)/ratio - x_dB[i]` above the
threshold, else `0`. -/
def gainChange_dB (xdB : List α) (thresh ratio : α) : List α :=
  xdB.map (fun v => if thresh < v then thresh + (v - thresh) / ratio - v else 0)

/-- The sequential attack/release smoothing loop of `compressor_new_fast`:
`lin_A[n] = (1-alpha)*gainChange_dB[n] + alpha*lin_A[n-1]` with
`alpha = alphaA` when `gainChange_dB[n] < lin_A[n-1]` (attack), else
`alphaR`; the initial `lin_A[n-1]` read at `n = 0` is the still-zero last
entry of the zero-initialized array, i.e. `0`. -/
def smoothGain (alphaA alphaR : α) : α → List α → List α
  | _, [] => []
  | prev, g :: rest =>
    let a := if g < prev then alphaA else alphaR
    let cur := (1 - a) * g + a * prev
    cur :: smoothGain alphaA alphaR cur rest

/-- `compressor_new_fast(x, thresh, ratio, attackTime, releaseTime, sr)`:
per-sample smoothing of the static gain curve, mapped to linear amplitude
`10**(lin_A/20)` and applied to `x`.  `alphaA`/`alphaR` stand for
`exp(-log(9)/(sr*attackTime))` and its release analogue. -/
def compressor_new_fast (dBf pow10 : α → α) (alphaA alphaR : α) (x : List α)
    (thresh ratio : α) : List α :=
  List.zipWith (fun g xi => g * xi)
    ((smoothGain alphaA alphaR 0 (gainChange_dB (comp2_xdB dBf x) thresh ratio)).map
      (fun v => pow10 (v / 20)))
    x

end Compressors

/-! ### Pluck-family generators -/

section Pluck

variable {α : Type} [LinearOrderedField α]

/-- `expdecay(t, t0, ...)` from helpers/audio.py with the uniform draws made
explicit: `height_low = 0.1*rLow + 0.1`, `height_high = 0.35*rHigh + 0.6`,
`decay = 12*rDec`; the envelope is `exp(-decay*(t-t0))*height_high`, with
every sample before `t0` overwritten by `height_low` (not by zero). -/
def expdecay (expf : α → α) (t : List α) (t0 rLow rHigh rDec : α) : List α :=
  t.map (fun ti =>
    if ti < t0 then 1/10 * rLow + 1/10
    else expf (-(12 * rDec) * (ti - t0)) * (7/20 * rHigh + 3/5))

/-- `pluck(t, t0_fac=...)` from helpers/audio.py: a sum of tones
`amp0 * sin(freq*(t-t0))` with `amp0 = (0.45*rAmp + 0.5)*choice` and
`freq = 50 + (6400-50)*rFreq`, all sharing the onset `t0 = t0_fac*t[-1]`,
multiplied elementwise by `expdecay(t, t0_fac=t0_fac)` with its own fresh
draws.  Each tone is a triple `(rAmp, choice, rFreq)`. -/
def pluck (sinf expf : α → α) (t : List α) (tones : List (α × α × α))
    (t0_fac rLow rHigh rDec : α) : List α :=
  List.zipWith (fun a b => a * b)
    (t.map (fun ti =>
      (tones.map (fun p =>
        (9/20 * p.1 + 1/2) * p.2.1 *
          sinf ((50 + 6350 * p.2.2) * (ti - t0_fac * t.getLastD 0)))).sum))
    (expdecay expf t (t0_fac * t.getLastD 0) rLow rHigh rDec)

/-- The pluck branch (`chooser == 2`) of signaltrain/audio.py
`gen_input_sample`: `x = amp0*exp(-decay*(t-t0))*sin(freq*(t-t0))` followed
by `x[np.where(t < t0)] = 0`. -/
def gen_input_sample_pluck (sinf expf : α → α) (t : List α) (amp0 t0 decay freq : α) :
    List α :=
  t.map (fun ti =>
    if ti < t0 then 0 else amp0 * expf (-decay * (ti - t0)) * sinf (freq * (ti - t0)))

end Pluck

/-! ### `Denoise` (helpers/audio.py) -/

/-- `Denoise.go(x, knobs_nn)` with the uniform noise draws `r` passed
explicitly: maps the single normalized knob through `knobs_wc` (range
`[0.01, 0.5]`), then `go_wc` returns the pair
`(x, x + strength*(2*rand(len(x))-1))` — first component the unmodified
`x`, second component the noisy signal. -/
def denoise_go (x : List ℚ) (nn : ℚ) (r : List ℚ) : List ℚ × List ℚ :=
  let strength := knob_wc1 (1/100, 1/2) nn
  (x, List.zipWith (fun xi ri => xi + strength * (2 * ri - 1)) x r)

/-! ### Helper lemmas -/

theorem pyInt_intCast (n : ℤ) : pyInt (n : ℚ) = n := by
  unfold pyInt
  split
  · exact Int.floor_intCast n
  · exact Int.ceil_intCast n

theorem ta_target_one (cs el en : ℕ) (j : ℚ) :
    ta_target_index cs el en 1 j = ta_grid_index cs el en := by
  unfold ta_target_index
  rw [show (1 : ℚ) * (ta_grid_index cs el en : ℚ) +
      (1 - 1) * (ta_input_index cs el en j : ℚ) = ((ta_grid_index cs el en : ℤ) : ℚ) by ring]
  exact pyInt_intCast _

theorem ta_target_zero (cs el en : ℕ) (j : ℚ) :
    ta_target_index cs el en 0 j = ta_input_index cs el en j := by
  unfold ta_target_index
  rw [show (0 : ℚ) * (ta_grid_index cs el en : ℚ) +
      (1 - 0) * (ta_input_index cs el en j : ℚ) = ((ta_input_index cs el en j : ℤ) : ℚ) by ring]
  exact pyInt_intCast _

theorem pyInt_bounds (lo hi : ℤ) (q : ℚ) (h1 : (lo : ℚ) ≤ q) (h2 : q ≤ (hi : ℚ)) :
    lo ≤ pyInt q ∧ pyInt q ≤ hi := by
  unfold pyInt
  split
  · exact ⟨Int.le_floor.mpr h1, by
      have := Int.floor_le_floor h2
      rwa [Int.floor_intCast] at this⟩
  · exact ⟨by
      have := Int.ceil_le_ceil h1
      rwa [Int.ceil_intCast] at this, Int.ceil_le.mpr h2⟩

/-! ### Claim C1: knob mapping invertibility -/

/-- C1 (amended): for every declared effect and every knob range with
`min ≠ max`, the physical value is `min + (normalized + 0.5)*(max - min)`,
the recovered normalized value is `(physical - min)/(max - min) - 0.5`, and
the two maps compose to the identity.  (The degenerate Echo knobs with
`min = max` are excluded; see the counterexample.) -/
theorem knob_map_roundtrip :
    ∀ e ∈ allEffects, ∀ r ∈ e.ranges, r.1 ≠ r.2 → ∀ v : ℚ,
      knob_wc1 r v = r.1 + (v + 1/2) * (r.2 - r.1) ∧
      (∀ w : ℚ, knob_nn1 r w = some ((w - r.1) / (r.2 - r.1) - 1/2)) ∧
      knob_nn1 r (knob_wc1 r v) = some v := by
  intro e _ r _ hne v
  have hd : r.2 - r.1 ≠ 0 := sub_ne_zero.mpr (Ne.symm hne)
  refine ⟨rfl, fun w => by simp [knob_nn1, hd], ?_⟩
  have h2 : knob_nn1 r (knob_wc1 r v) =
      some ((knob_wc1 r v - r.1) / (r.2 - r.1) - 1/2) := by
    simp [knob_nn1, hd]
  rw [h2]
  congr 1
  rw [knob_wc1]
  field_simp
  ring

/-- C1 witness: the round trip on the Compressor threshold knob at the
normalized endpoint `v = 1/2`. -/
theorem knob_map_roundtrip_witness :
    compressorE ∈ allEffects ∧ ((-30 : ℚ), (0 : ℚ)) ∈ compressorE.ranges ∧
    ((-30 : ℚ)) ≠ (0 : ℚ) ∧
    knob_nn1 (-30, 0) (knob_wc1 (-30, 0) (1/2)) = some (1/2) :=
  ⟨by simp [allEffects], by norm_num [compressorE], by norm_num,
    (knob_map_roundtrip compressorE (by simp [allEffects]) (-30, 0)
      (by norm_num [compressorE]) (by norm_num) (1/2)).2.2⟩

/-- C1 counterexample: the Echo effect declares the degenerate knob range
`[400, 400]`; there the normalization divides by zero (NaN, modelled
`none`), so the round trip does not return the original vector. -/
theorem knob_map_roundtrip_counterexample :
    echoE ∈ allEffects ∧ ((400 : ℚ), (400 : ℚ)) ∈ echoE.ranges ∧
    knob_nn1 (400, 400) (knob_wc1 (400, 400) 0) = none ∧
    knob_nn1 (400, 400) (knob_wc1 (400, 400) 0) ≠ some 0 := by
  refine ⟨by simp [allEffects], by norm_num [echoE], by norm_num [knob_nn1],
    by simp [knob_nn1]⟩

/-! ### Claim C7: time-align target index at strength endpoints -/

/-- C7: in `ta_oneproc`, with `strength = 1.0` the target onset index is
exactly the uniform grid index `int(eventnum*event_len) + int(chunk_size/2)`,
and with `strength = 0.0` it is exactly the jittered input onset index. -/
theorem ta_strength_endpoints (cs el en : ℕ) (j : ℚ) :
    ta_target_index cs el en 1 j = ta_grid_index cs el en ∧
    ta_target_index cs el en 0 j = ta_input_index cs el en j :=
  ⟨ta_target_one cs el en j, ta_target_zero cs el en j⟩

/-! ### Claim C8: time-align roles of target and input -/

/-- C8 (amended): the *input* position is always the jittered one,
`grid_index + random_shift`, independent of `strength`; the *target*
position is `int(strength*grid + (1-strength)*input)`, which lies between
the grid and the jittered position for `strength ∈ [0,1]`, lands exactly on
the grid at `strength = 1`, and equals the jittered input position at
`strength = 0`.  (The claim had the two roles swapped.) -/
theorem ta_roles (cs el en : ℕ) (s j : ℚ) (h0 : 0 ≤ s) (h1 : s ≤ 1) :
    ta_input_index cs el en j = ta_grid_index cs el en + ta_random_shift el j ∧
    ta_target_index cs el en 1 j = ta_grid_index cs el en ∧
    ta_target_index cs el en 0 j = ta_input_index cs el en j ∧
    min (ta_grid_index cs el en) (ta_input_index cs el en j) ≤ ta_target_index cs el en s j ∧
    ta_target_index cs el en s j ≤ max (ta_grid_index cs el en) (ta_input_index cs el en j) := by
  refine ⟨rfl, ta_target_one cs el en j, ta_target_zero cs el en j, ?_, ?_⟩
  all_goals
    have hg := ta_grid_index cs el en
    set g : ℤ := ta_grid_index cs el en with hgdef
    set i : ℤ := ta_input_index cs el en j with hidef
    have hlo : ((min g i : ℤ) : ℚ) ≤ s * (g : ℚ) + (1 - s) * (i : ℚ) := by
      rcases le_total g i with hgi | hgi
      · have : ((min g i : ℤ) : ℚ) = (g : ℚ) := by
          rw [min_eq_left hgi]
        rw [this]
        have hcast : (g : ℚ) ≤ (i : ℚ) := by exact_mod_cast hgi
        nlinarith
      · have : ((min g i : ℤ) : ℚ) = (i : ℚ) := by
          rw [min_eq_right hgi]
        rw [this]
        have hcast : (i : ℚ) ≤ (g : ℚ) := by exact_mod_cast hgi
        nlinarith
    have hhi : s * (g : ℚ) + (1 - s) * (i : ℚ) ≤ ((max g i : ℤ) : ℚ) := by
      rcases le_total g i with hgi | hgi
      · have : ((max g i : ℤ) : ℚ) = (i : ℚ) := by
          rw [max_eq_right hgi]
        rw [this]
        have hcast : (g : ℚ) ≤ (i : ℚ) := by exact_mod_cast hgi
        nlinarith
      · have : ((max g i : ℤ) : ℚ) = (g : ℚ) := by
          rw [max_eq_left hgi]
        rw [this]
        have hcast : (i : ℚ) ≤ (g : ℚ) := by exact_mod_cast hgi
        nlinarith
    have hb := pyInt_bounds (min g i) (max g i) (s * (g : ℚ) + (1 - s) * (i : ℚ)) hlo hhi
  · exact hb.1
  · exact hb.2

/-- C8 witness: concrete placement with `chunk_size = 100`, `event_len = 10`,
`eventnum = 0`, `strength = 1/2`, jitter draw `3/4`. -/
theorem ta_roles_witness :
    (0 : ℚ) ≤ 1/2 ∧ (1/2 : ℚ) ≤ 1 ∧
    ta_input_index 100 10 0 (3/4) = ta_grid_index 100 10 0 + ta_random_shift 10 (3/4) ∧
    min (ta_grid_index 100 10 0) (ta_input_index 100 10 0 (3/4)) ≤
      ta_target_index 100 10 0 (1/2) (3/4) ∧
    ta_target_index 100 10 0 (1/2) (3/4) ≤
      max (ta_grid_index 100 10 0) (ta_input_index 100 10 0 (3/4)) := by
  have h := ta_roles 100 10 0 (1/2) (3/4) (by norm_num) (by norm_num)
  exact ⟨by norm_num, by norm_num, h.1, h.2.2.2.1, h.2.2.2.2⟩

/-- C8 counterexample: with `strength = 0` and a nonzero jitter the target
index (51) is *not* on the grid (50), refuting "the target position is
exactly on the uniform grid for every strength value"; likewise the input
index (51, independent of strength) is off the grid even at `strength = 1`. -/
theorem ta_roles_counterexample :
    ta_grid_index 100 10 0 = 50 ∧
    ta_input_index 100 10 0 (3/4) = 51 ∧
    ta_target_index 100 10 0 0 (3/4) = 51 ∧
    ta_target_index 100 10 0 1 (3/4) = 50 ∧
    (51 : ℤ) ≠ 50 := by
  refine ⟨by norm_num [ta_grid_index], ?_, ?_, ?_, by norm_num⟩
  · norm_num [ta_input_index, ta_grid_index, ta_random_shift, pyInt]
  · norm_num [ta_target_index, ta_input_index, ta_grid_index, ta_random_shift, pyInt]
  · norm_num [ta_target_index, ta_input_index, ta_grid_index, ta_random_shift, pyInt]

/-! ### Claim C9: dimension checking of `knobs_wc` -/

theorem bcOp_eq_some (f : ℚ → ℚ → ℚ) (a b : List ℚ) (h : a.length = b.length) :
    bcOp f a b = some (List.zipWith f a b) := by
  simp [bcOp, h]

theorem bcOp_singleton_left (f : ℚ → ℚ → ℚ) (x : ℚ) (b : List ℚ) :
    bcOp f [x] b = some (b.map (fun y => f x y)) := by
  rcases b with _ | ⟨y, ⟨⟩ | ⟨y2, bs⟩⟩ <;> simp [bcOp]

theorem bcOp_eq_none (f : ℚ → ℚ → ℚ) (a b : List ℚ) (h : a.length ≠ b.length)
    (ha : a.length ≠ 1) (hb : b.length ≠ 1) : bcOp f a b = none := by
  rcases a with _ | ⟨x, ⟨⟩ | ⟨x2, as⟩⟩ <;>
    rcases b with _ | ⟨y, ⟨⟩ | ⟨y2, bs⟩⟩ <;>
    simp_all [bcOp]

theorem knobs_wc_zip_eq :
    ∀ (ranges : List (ℚ × ℚ)) (nn : List ℚ),
      List.zipWith (fun x y => x + y) (ranges.map Prod.fst)
        (List.zipWith (fun x y => x * y) (nn.map (fun v => v + 1/2))
          (List.zipWith (fun M m => M - m) (ranges.map Prod.snd) (ranges.map Prod.fst))) =
      List.zipWith knob_wc1 ranges nn
  | [], _ => by simp
  | r :: rest, [] => by simp
  | r :: rest, v :: vs => by
    simp only [List.map_cons, List.zipWith_cons_cons]
    exact congrArg₂ List.cons rfl (knobs_wc_zip_eq rest vs)

theorem knobs_wc_bc_eq (v : ℚ) :
    ∀ ranges : List (ℚ × ℚ),
      List.zipWith (fun x y => x + y) (ranges.map Prod.fst)
        ((List.zipWith (fun M m => M - m) (ranges.map Prod.snd) (ranges.map Prod.fst)).map
          (fun y => (v + 1/2) * y)) =
      ranges.map (fun r => knob_wc1 r v)
  | [] => by simp
  | r :: rest => by
    simp only [List.map_cons, List.zipWith_cons_cons]
    exact congrArg₂ List.cons rfl (knobs_wc_bc_eq v rest)

/-- C9 (amended): `knobs_wc` fails (a numpy dimension error, modelled `none`)
whenever the normalized vector's length differs from the declared knob count
*and* neither length is 1; a matching length gives the elementwise affine
map, but a length-1 vector (or a 1-knob effect given a longer vector) is
silently broadcast by numpy rather than rejected. -/
theorem knobs_wc_dimension (ranges : List (ℚ × ℚ)) (nn : List ℚ) :
    (nn.length = ranges.length → knobs_wc ranges nn = some (List.zipWith knob_wc1 ranges nn)) ∧
    (nn.length ≠ ranges.length → nn.length ≠ 1 → ranges.length ≠ 1 →
      knobs_wc ranges nn = none) ∧
    (∀ v : ℚ, nn = [v] → knobs_wc ranges nn = some (ranges.map (fun r => knob_wc1 r v))) := by
  refine ⟨?_, ?_, ?_⟩
  · intro h
    have h1 : (nn.map (fun v => v + 1/2)).length =
        (List.zipWith (fun M m => M - m) (ranges.map Prod.snd) (ranges.map Prod.fst)).length := by
      simp [h]
    unfold knobs_wc
    rw [bcOp_eq_some _ _ _ h1]
    simp only [Option.some_bind]
    rw [bcOp_eq_some _ _ _ (by simp [h]), knobs_wc_zip_eq]
  · intro h hn hr
    have h1 : (nn.map (fun v => v + 1/2)).length ≠
        (List.zipWith (fun M m => M - m) (ranges.map Prod.snd) (ranges.map Prod.fst)).length := by
      simpa using fun hc => h (by simpa using hc)
    unfold knobs_wc
    rw [bcOp_eq_none _ _ _ h1 (by simpa using hn) (by simpa using hr)]
    rfl
  · rintro v rfl
    unfold knobs_wc
    rw [show ([v].map (fun v => v + 1/2)) = [v + 1/2] by simp, bcOp_singleton_left]
    simp only [Option.some_bind]
    rw [bcOp_eq_some _ _ _ (by simp), knobs_wc_bc_eq]

/-- C9 witness: the Compressor declares 3 knobs; a length-2 vector raises
the dimension error, a length-3 vector is mapped elementwise. -/
theorem knobs_wc_dimension_witness :
    (2 ≠ 3 ∧ knobs_wc compressorE.ranges [0, 0] = none) ∧
    knobs_wc compressorE.ranges [0, 0, 0] =
      some (List.zipWith knob_wc1 compressorE.ranges [0, 0, 0]) := by
  constructor
  · exact ⟨by norm_num,
      (knobs_wc_dimension compressorE.ranges [0, 0]).2.1 (by norm_num [compressorE])
        (by norm_num) (by norm_num [compressorE])⟩
  · exact (knobs_wc_dimension compressorE.ranges [0, 0, 0]).1 (by norm_num [compressorE])

/-- C9 counterexample: a length-1 normalized vector fed to the 3-knob
Compressor is *not* rejected — numpy broadcasts it to all three knobs and
returns the three physical values, refuting "fails whenever the vector's
length differs from the effect's declared knob count". -/
theorem knobs_wc_dimension_counterexample :
    compressorE.ranges.length = 3 ∧ ([(0 : ℚ)]).length = 1 ∧ (1 : ℕ) ≠ 3 ∧
    knobs_wc compressorE.ranges [0] = some [-15, 3, 1029] := by
  refine ⟨by norm_num [compressorE], by norm_num, by norm_num, ?_⟩
  have h := (knobs_wc_dimension compressorE.ranges [0]).2.2 0 rfl
  rw [h]
  norm_num [compressorE, knob_wc1]

/-! ### Claim C10: `chopnstack` / `inv_chopnstack` round trip -/

theorem splitRows_flatten (size : ℕ) :
    ∀ (m : ℕ) (l : List ℚ), l.length ≤ m * size → (splitRows size m l).flatten = l := by
  intro m
  induction m with
  | zero =>
    intro l hl
    have : l = [] := List.length_eq_zero.mp (Nat.le_zero.mp (by simpa using hl))
    simp [this, splitRows]
  | succ k ih =>
    intro l hl
    have hdrop : (l.drop size).length ≤ k * size := by
      simp only [List.length_drop]
      have : (k + 1) * size = k * size + size := by ring
      omega
    simp [splitRows, ih (l.drop size) hdrop]

/-- C10 (amended): for every *nonempty* signal and every chunk size `s > 0`,
flattening the stack and truncating to the original length recovers the
signal exactly, and without the length argument the result is the signal
zero-padded at the tail to `ceil(len/s) * s`, the next multiple of `s`.
(The empty signal makes `np.split` raise; see the counterexample.) -/
theorem chopnstack_roundtrip (sig : List ℚ) (size : ℕ) (hs : 0 < size) (hne : sig ≠ []) :
    (chopnstack sig size).map (fun st => inv_chopnstack st (some sig.length)) = some sig ∧
    (chopnstack sig size).map (fun st => inv_chopnstack st none) =
      some (sig ++ List.replicate ((sig.length + size - 1) / size * size - sig.length) 0) := by
  have hcond : ¬(sig.length = 0 ∨ size = 0) := by
    push_neg
    exact ⟨fun hc => hne (List.length_eq_zero.mp hc), Nat.pos_iff_ne_zero.mp hs⟩
  set n := (sig.length + size - 1) / size with hn
  set buffer := sig ++ List.replicate (n * size - sig.length) 0 with hbuf
  have hle : sig.length ≤ n * size := by
    rw [hn, mul_comm]
    have h1 := Nat.div_add_mod (sig.length + size - 1) size
    have h2 := Nat.mod_lt (sig.length + size - 1) hs
    have h3 : sig.length ≠ 0 := fun hc => hne (List.length_eq_zero.mp hc)
    omega
  have hbuflen : buffer.length ≤ n * size := by
    simp only [hbuf, List.length_append, List.length_replicate]
    omega
  have hchop : chopnstack sig size = some (splitRows size n buffer) := by
    unfold chopnstack
    rw [if_neg hcond]
  have hflat : (splitRows size n buffer).flatten = buffer :=
    splitRows_flatten size n buffer hbuflen
  constructor
  · rw [hchop]
    show some (inv_chopnstack (splitRows size n buffer) (some sig.length)) = some sig
    simp only [inv_chopnstack, hflat]
    rw [hbuf, List.take_left]
  · rw [hchop]
    show some (inv_chopnstack (splitRows size n buffer) none) = some _
    simp only [inv_chopnstack, hflat]

/-- C10 witness: the round trip on `[1, 2, 3]` with chunk size 2. -/
theorem chopnstack_roundtrip_witness :
    (chopnstack [1, 2, 3] 2).map (fun st => inv_chopnstack st (some 3)) = some [1, 2, 3] ∧
    (chopnstack [1, 2, 3] 2).map (fun st => inv_chopnstack st none) = some [1, 2, 3, 0] := by
  have h := chopnstack_roundtrip [1, 2, 3] 2 (by norm_num) (by simp)
  constructor
  · exact h.1
  · rw [h.2]
    norm_num

/-- C10 counterexample: on the empty signal `chopnstack` raises
(`np.split(buffer, 0)` — number of sections must be larger than 0), so the
composition is not the identity there. -/
theorem chopnstack_roundtrip_counterexample :
    chopnstack ([] : List ℚ) 1 = none ∧
    (chopnstack ([] : List ℚ) 1).map (fun st => inv_chopnstack st (some 0)) ≠
      some [] := by
  constructor
  · rfl
  · intro h
    simp [chopnstack] at h

/-! ### Claim C6: the Denoise effect -/

theorem zip_zipWith_mem (f : ℚ → ℚ → ℚ) :
    ∀ (x r : List ℚ), ∀ p ∈ List.zip x (List.zipWith f x r),
      ∃ ri ∈ r, p.2 = f p.1 ri
  | [], _, p, hp => by simp at hp
  | _ :: _, [], p, hp => by simp at hp
  | xi :: xs, ri :: rs, p, hp => by
    rw [List.zipWith_cons_cons, List.zip_cons_cons] at hp
    rcases List.mem_cons.mp hp with hp | hp
    · exact ⟨ri, List.mem_cons_self ri rs, by rw [hp]⟩
    · obtain ⟨ri', hri', hval⟩ := zip_zipWith_mem f xs rs p hp
      exact ⟨ri', List.mem_cons_of_mem ri hri', hval⟩

/-- C6 (amended): `Denoise.go` maps its knob to world coordinates, adds
uniform noise of amplitude `strength` to `x`, and returns the pair
`(target, input) = (clean x, noisy x)` — the *clean original is the target*
and the *noisy signal is the input* (the noise is bounded by `strength`),
with `is_inverse = true`.  (The claim had the pair the other way around.) -/
theorem denoise_swap (x : List ℚ) (nn : ℚ) (r : List ℚ)
    (hnn : -(1/2) ≤ nn) (hb : ∀ ri ∈ r, 0 ≤ ri ∧ ri ≤ 1) :
    denoiseE.is_inverse = true ∧
    (denoise_go x nn r).1 = x ∧
    (denoise_go x nn r).2 =
      List.zipWith (fun xi ri => xi + knob_wc1 (1/100, 1/2) nn * (2 * ri - 1)) x r ∧
    0 < knob_wc1 (1/100, 1/2) nn ∧
    ∀ p ∈ List.zip x (denoise_go x nn r).2, |p.2 - p.1| ≤ knob_wc1 (1/100, 1/2) nn := by
  have hs : 0 < knob_wc1 (1/100, 1/2) nn := by
    simp only [knob_wc1]
    nlinarith
  refine ⟨rfl, rfl, rfl, hs, ?_⟩
  intro p hp
  obtain ⟨ri, hri, hval⟩ := zip_zipWith_mem _ x r p hp
  rw [hval]
  have habs : |2 * ri - 1| ≤ 1 :=
    abs_le.mpr ⟨by linarith [(hb ri hri).1], by linarith [(hb ri hri).2]⟩
  have : p.1 + knob_wc1 (1/100, 1/2) nn * (2 * ri - 1) - p.1 =
      knob_wc1 (1/100, 1/2) nn * (2 * ri - 1) := by ring
  rw [this, abs_mul, abs_of_pos hs]
  nlinarith [abs_nonneg (2 * ri - 1)]

/-- C6 witness: one sample, knob at the normalized center, noise draw 1. -/
theorem denoise_swap_witness :
    (denoise_go [1] 0 [1]).1 = [1] ∧
    (denoise_go [1] 0 [1]).2 =
      List.zipWith (fun xi ri => xi + knob_wc1 (1/100, 1/2) 0 * (2 * ri - 1)) [1] [1] ∧
    0 < knob_wc1 (1/100, 1/2) 0 := by
  have h := denoise_swap [1] 0 [1] (by norm_num) (by simp)
  exact ⟨h.2.1, h.2.2.1, h.2.2.2.1⟩

/-- C6 counterexample: at `x = [0]`, centered knob and noise draw 0, `go`
returns `([0], [-51/200])`: the first component (the target) is the *clean*
signal and the second (the input) is the *noisy* one, refuting "the noisy
signal is the target and the clean original x is the input". -/
theorem denoise_swap_counterexample :
    (denoise_go [0] 0 [0]).1 = [0] ∧
    (denoise_go [0] 0 [0]).2 = [-51/200] ∧
    ([(0 : ℚ)] : List ℚ) ≠ [-51/200] := by
  refine ⟨rfl, ?_, by norm_num⟩
  norm_num [denoise_go, knob_wc1]

/-! ### Claim C2: `int2knobs` grid enumeration -/

theorem mod_pow_div_mod_aux (sp q r e m : ℕ) (hsp : 0 < sp) (h : e < m) :
    (sp ^ m * q + r) / sp ^ e % sp = r / sp ^ e % sp := by
  have hme : sp ^ m = sp ^ e * sp ^ (m - e) := by
    rw [← pow_add]
    congr 1
    omega
  have hpe : 0 < sp ^ e := pow_pos hsp e
  rw [hme, mul_assoc, Nat.mul_add_div hpe]
  have hsucc : sp ^ (m - e) = sp * sp ^ (m - e - 1) := by
    rw [← pow_succ']
    congr 1
    omega
  rw [hsucc, mul_assoc, Nat.mul_add_mod]

/-- Taking `idx % sp^m` does not change base-`sp` digits below position `m`. -/
theorem mod_pow_div_mod (sp x e m : ℕ) (hsp : 0 < sp) (h : e < m) :
    x % sp ^ m / sp ^ e % sp = x / sp ^ e % sp := by
  conv_rhs => rw [← Nat.div_add_mod x (sp ^ m)]
  rw [mod_pow_div_mod_aux sp (x / sp ^ m) (x % sp ^ m) e m hsp h]

/-- Each entry of the `int2knobs` loop is the affine image of the
corresponding base-`sp` digit of `idx`. -/
theorem int2knobsLoop_getElem (sp : ℕ) (hsp : 2 ≤ sp) :
    ∀ (ranges : List (ℚ × ℚ)) (idx : ℕ), idx < sp ^ ranges.length →
      ∀ (j : ℕ) (r : ℚ × ℚ), ranges[j]? = some r →
        (int2knobsLoop sp ranges idx)[j]? =
          some (r.1 + (r.2 - r.1) / ((sp : ℚ) - 1) *
            (int2knobsDigit sp idx ranges.length j : ℚ)) := by
  intro ranges
  induction ranges with
  | nil =>
    intro idx _ j r hj
    simp at hj
  | cons r0 rest ih =>
    intro idx hidx j r hj
    have hsp0 : 0 < sp := by omega
    have hppos : 0 < sp ^ rest.length := pow_pos hsp0 _
    cases j with
    | zero =>
      obtain rfl : r0 = r := by simpa using hj
      have hset : idx / sp ^ rest.length < sp := by
        rw [Nat.div_lt_iff_lt_mul hppos, ← pow_succ']
        simpa using hidx
      simp [int2knobsLoop, int2knobsDigit, Nat.mod_eq_of_lt hset]
    | succ j' =>
      have hj' : rest[j']? = some r := by simpa using hj
      have hjlt : j' < rest.length := by
        by_contra hcon
        rw [List.getElem?_eq_none (by omega)] at hj'
        exact Option.noConfusion hj'
      have hidx' : idx % sp ^ rest.length < sp ^ rest.length := Nat.mod_lt _ hppos
      have hrec := ih (idx % sp ^ rest.length) hidx' j' r hj'
      have hstep : (int2knobsLoop sp (r0 :: rest) idx)[j' + 1]? =
          (int2knobsLoop sp rest (idx % sp ^ rest.length))[j']? := by
        simp [int2knobsLoop]
      rw [hstep, hrec]
      have hdig : int2knobsDigit sp (idx % sp ^ rest.length) rest.length j' =
          int2knobsDigit sp idx (r0 :: rest).length (j' + 1) := by
        unfold int2knobsDigit
        have he : (r0 :: rest).length - 1 - (j' + 1) = rest.length - 1 - j' := by
          simp
          omega
        rw [he, mod_pow_div_mod sp idx (rest.length - 1 - j') rest.length hsp0 (by omega)]
      rw [hdig]

/-- Two numbers below `sp^nk` with the same base-`sp` digits are equal. -/
theorem digits_determine (sp : ℕ) (hsp : 2 ≤ sp) :
    ∀ (nk a b : ℕ), a < sp ^ nk → b < sp ^ nk →
      (∀ e, e < nk → a / sp ^ e % sp = b / sp ^ e % sp) → a = b := by
  intro nk
  induction nk with
  | zero =>
    intro a b ha hb _
    simp at ha hb
    omega
  | succ k ih =>
    intro a b ha hb hd
    have hsp0 : 0 < sp := by omega
    have h0 := hd 0 (Nat.succ_pos k)
    simp at h0
    have ha' : a / sp < sp ^ k := by
      rw [Nat.div_lt_iff_lt_mul hsp0]
      calc a < sp ^ (k + 1) := ha
        _ = sp ^ k * sp := pow_succ sp k
    have hb' : b / sp < sp ^ k := by
      rw [Nat.div_lt_iff_lt_mul hsp0]
      calc b < sp ^ (k + 1) := hb
        _ = sp ^ k * sp := pow_succ sp k
    have hd' : ∀ e, e < k → a / sp / sp ^ e % sp = b / sp / sp ^ e % sp := by
      intro e he
      rw [Nat.div_div_eq_div_mul, Nat.div_div_eq_div_mul, ← pow_succ']
      exact hd (e + 1) (by omega)
    have heq := ih (a / sp) (b / sp) ha' hb' hd'
    have h1 := Nat.div_add_mod a sp
    have h2 := Nat.div_add_mod b sp
    rw [← heq] at h2
    omega

/-- C2 (amended): `int2knobs` decomposes the index in mixed-radix base
`settings_per` with the least-significant digit at the last knob, maps digit
`d` of knob `[min,max]` to `min + d*(max-min)/(settings_per-1)`, is injective
on `[0, settings_per^num_knobs)` *provided every knob range has min ≠ max*
(a degenerate range collapses distinct indices; see the counterexample),
fails (assertion, modelled `none`) for out-of-range indices, and satisfies
`int2knobs i [[0,9]] 10 = [i]` for `i < 10`. -/
theorem int2knobs_correct :
    (∀ (ranges : List (ℚ × ℚ)) (sp idx : ℕ), 2 ≤ sp → idx < sp ^ ranges.length →
      int2knobs idx ranges sp = some (int2knobsLoop sp ranges idx) ∧
      ∀ (j : ℕ) (r : ℚ × ℚ), ranges[j]? = some r →
        (int2knobsLoop sp ranges idx)[j]? =
          some (r.1 + (r.2 - r.1) / ((sp : ℚ) - 1) *
            (int2knobsDigit sp idx ranges.length j : ℚ))) ∧
    (∀ (ranges : List (ℚ × ℚ)) (sp idx : ℕ), sp ^ ranges.length ≤ idx →
      int2knobs idx ranges sp = none) ∧
    (∀ (ranges : List (ℚ × ℚ)) (sp : ℕ), 2 ≤ sp → (∀ r ∈ ranges, r.1 ≠ r.2) →
      ∀ i j : ℕ, i < sp ^ ranges.length → j < sp ^ ranges.length →
        int2knobs i ranges sp = int2knobs j ranges sp → i = j) ∧
    (∀ i : ℕ, i < 10 → int2knobs i [((0 : ℚ), 9)] 10 = some [(i : ℚ)]) := by
  refine ⟨?_, ?_, ?_, ?_⟩
  · intro ranges sp idx hsp hidx
    exact ⟨by simp [int2knobs, hidx], fun j r hj =>
      int2knobsLoop_getElem sp hsp ranges idx hidx j r hj⟩
  · intro ranges sp idx hidx
    simp [int2knobs, Nat.not_lt.mpr hidx]
  · intro ranges sp hsp hnd i j hi hj heq
    have hsome_i : int2knobs i ranges sp = some (int2knobsLoop sp ranges i) := by
      simp [int2knobs, hi]
    have hsome_j : int2knobs j ranges sp = some (int2knobsLoop sp ranges j) := by
      simp [int2knobs, hj]
    rw [hsome_i, hsome_j] at heq
    have hloops : int2knobsLoop sp ranges i = int2knobsLoop sp ranges j :=
      Option.some.inj heq
    apply digits_determine sp hsp ranges.length i j hi hj
    intro e he
    set jdx := ranges.length - 1 - e with hjdx
    have hjlt : jdx < ranges.length := by omega
    have hr : ranges[jdx]? = some ranges[jdx] := List.getElem?_eq_getElem hjlt
    have h1 := int2knobsLoop_getElem sp hsp ranges i hi jdx ranges[jdx] hr
    have h2 := int2knobsLoop_getElem sp hsp ranges j hj jdx ranges[jdx] hr
    rw [hloops] at h1
    have hv := Option.some.inj (h1.symm.trans h2)
    have hden : ((sp : ℚ) - 1) ≠ 0 := by
      have : (sp : ℚ) ≠ 1 := by
        exact_mod_cast (by omega : sp ≠ 1)
      exact sub_ne_zero.mpr this
    have hnum : (ranges[jdx]).2 - (ranges[jdx]).1 ≠ 0 :=
      sub_ne_zero.mpr (Ne.symm (hnd ranges[jdx] (List.getElem_mem hjlt)))
    have hcoef : ((ranges[jdx]).2 - (ranges[jdx]).1) / ((sp : ℚ) - 1) ≠ 0 :=
      div_ne_zero hnum hden
    have hcancel : (int2knobsDigit sp i ranges.length jdx : ℚ) =
        (int2knobsDigit sp j ranges.length jdx : ℚ) := by
      have := add_left_cancel hv
      exact mul_left_cancel₀ hcoef this
    have hdigeq : int2knobsDigit sp i ranges.length jdx =
        int2knobsDigit sp j ranges.length jdx := by exact_mod_cast hcancel
    have hexp : ranges.length - 1 - jdx = e := by omega
    unfold int2knobsDigit at hdigeq
    rwa [hexp] at hdigeq
  · intro i hi
    simp [int2knobs, int2knobsLoop, hi]
    norm_num

/-- C2 witness: index 3 over two `[0,1]` knobs with 2 settings each; index 4
is out of range; `int2knobs 7 [[0,9]] 10 = [7]`. -/
theorem int2knobs_correct_witness :
    int2knobs 3 [((0 : ℚ), 1), (0, 1)] 2 =
      some (int2knobsLoop 2 [((0 : ℚ), 1), (0, 1)] 3) ∧
    (int2knobsLoop 2 [((0 : ℚ), 1), (0, 1)] 3)[1]? =
      some (0 + (1 - 0) / ((2 : ℚ) - 1) * (int2knobsDigit 2 3 2 1 : ℚ)) ∧
    int2knobs 4 [((0 : ℚ), 1), (0, 1)] 2 = none ∧
    int2knobs 7 [((0 : ℚ), 9)] 10 = some [7] := by
  have h1 := int2knobs_correct.1 [((0 : ℚ), 1), (0, 1)] 2 3 (by norm_num) (by norm_num)
  have h2 := h1.2 1 (0, 1) (by rfl)
  refine ⟨h1.1, h2, int2knobs_correct.2.1 [((0 : ℚ), 1), (0, 1)] 2 4 (by norm_num), ?_⟩
  have h7 := int2knobs_correct.2.2.2 7 (by norm_num)
  simpa using h7

/-- C2 counterexample: with the degenerate knob range `[0,0]` (as the Echo
effect actually declares for two of its knobs) the distinct indices 0 and 1
map to the same knob vector `[0]`, refuting distinctness for arbitrary range
lists. -/
theorem int2knobs_counterexample :
    int2knobs 0 [((0 : ℚ), 0)] 2 = some [0] ∧
    int2knobs 1 [((0 : ℚ), 0)] 2 = some [0] ∧
    (0 : ℕ) ≠ 1 := by
  refine ⟨?_, ?_, by norm_num⟩ <;> norm_num [int2knobs, int2knobsLoop]

/-! ### Claim C4: the `echo` effect -/

theorem shiftZero_length (x : List ℚ) (d : ℕ) : (shiftZero x d).length = x.length := by
  simp [shiftZero]

theorem slice_pad (x : List ℚ) (d : ℕ) (hd : d ≠ 0) :
    pySliceToNeg (npPadHead x d) d = shiftZero x d := by
  unfold pySliceToNeg npPadHead shiftZero
  rw [if_neg hd]
  congr 1
  simp

theorem foldl_range_succ {α : Type} (f : α → ℕ → α) (a : α) (n : ℕ) :
    (List.range (n + 1)).foldl f a = f ((List.range n).foldl f a) n := by
  rw [List.range_succ, List.foldl_append]
  rfl

/-- One echo tap, for `delay_samples ≥ 1`, is exactly the claim's blend of
the two zero-padded integer shifts. -/
theorem echoTap_eq (x : List ℚ) (ds : ℚ) (k : ℕ) (hds : 1 ≤ ds) (hk : 1 ≤ k) :
    echoTap x ds k =
      some (List.zipWith
        (fun a b => (1 - ((k : ℚ) * ds - (⌊(k : ℚ) * ds⌋ : ℚ))) * a +
          ((k : ℚ) * ds - (⌊(k : ℚ) * ds⌋ : ℚ)) * b)
        (shiftZero x ⌊(k : ℚ) * ds⌋.toNat) (shiftZero x (⌊(k : ℚ) * ds⌋.toNat + 1))) := by
  have hk1 : (1 : ℚ) ≤ (k : ℚ) := by exact_mod_cast hk
  have hq : (1 : ℚ) ≤ (k : ℚ) * ds := by nlinarith
  have hfl : (1 : ℤ) ≤ ⌊(k : ℚ) * ds⌋ := Int.le_floor.mpr (by exact_mod_cast hq)
  have hflnn : (0 : ℤ) ≤ ⌊(k : ℚ) * ds⌋ := by omega
  have hcast : ((⌊(k : ℚ) * ds⌋.toNat : ℕ) : ℚ) = ((⌊(k : ℚ) * ds⌋ : ℤ) : ℚ) := by
    exact_mod_cast congrArg (fun z : ℤ => (z : ℚ)) (Int.toNat_of_nonneg hflnn)
  have htn : ⌊(k : ℚ) * ds⌋.toNat ≠ 0 := by omega
  unfold echoTap
  rw [if_neg (by omega)]
  rw [slice_pad x _ htn, slice_pad x _ (Nat.succ_ne_zero _)]
  rw [bcOp_eq_some _ _ _ (by simp [shiftZero_length])]
  rw [List.zipWith_map]
  rw [hcast]

theorem echo_succ (x : List ℚ) (ds ratio : ℚ) (E : ℕ) :
    echo x ds ratio (E + 1) =
      (echo x ds ratio E).bind (fun y =>
        (echoTap x ds (E + 1)).bind (fun xd =>
          bcOp (fun a b => a + b) y (xd.map (fun v => ratio ^ (E + 1) * v)))) := by
  unfold echo
  rw [foldl_range_succ]

theorem echoSpec_succ (x : List ℚ) (ds ratio : ℚ) (E : ℕ) :
    echoSpec x ds ratio (E + 1) =
      List.zipWith (fun a b => a + b) (echoSpec x ds ratio E)
        ((List.zipWith
            (fun a b => (1 - (((E + 1 : ℕ) : ℚ) * ds - (⌊((E + 1 : ℕ) : ℚ) * ds⌋ : ℚ))) * a +
              (((E + 1 : ℕ) : ℚ) * ds - (⌊((E + 1 : ℕ) : ℚ) * ds⌋ : ℚ)) * b)
            (shiftZero x ⌊((E + 1 : ℕ) : ℚ) * ds⌋.toNat)
            (shiftZero x (⌊((E + 1 : ℕ) : ℚ) * ds⌋.toNat + 1))).map
          (fun v => ratio ^ (E + 1) * v)) := by
  unfold echoSpec
  rw [foldl_range_succ]

theorem echoSpec_length (x : List ℚ) (ds ratio : ℚ) :
    ∀ E, (echoSpec x ds ratio E).length = x.length := by
  intro E
  induction E with
  | zero => rfl
  | succ n ih => simp [echoSpec_succ, ih, shiftZero_length]

/-- C4 (amended): for `delay_samples ≥ 1` (so that every tap's integer shift
is at least one sample — a sub-1 delay hits the `a[0:-0]` empty-slice bug and
raises; see the counterexample), the echo output is exactly `x` plus, for
each `k = 1..E`, `ratio^k` times the blend
`(1-frac)*shift_(floor(k*ds)) x + frac*shift_(floor(k*ds)+1) x` with `frac`
the fractional part of `k*delay_samples` and each shift zero-padded at the
head. -/
theorem echo_fractional_delay (x : List ℚ) (ds ratio : ℚ) (E : ℕ) (hds : 1 ≤ ds) :
    echo x ds ratio E = some (echoSpec x ds ratio E) := by
  induction E with
  | zero => rfl
  | succ n ih =>
    rw [echo_succ, ih, Option.some_bind, echoTap_eq x ds (n + 1) hds (by omega),
      Option.some_bind]
    rw [bcOp_eq_some _ _ _ (by simp [echoSpec_length, shiftZero_length])]
    rw [echoSpec_succ]

/-- C4 witness: a unit-sample delay of one echo on `[1, 0, 0]`. -/
theorem echo_fractional_delay_witness :
    (1 : ℚ) ≤ 1 ∧
    echo [1, 0, 0] 1 (1/2) 1 = some (echoSpec [1, 0, 0] 1 (1/2) 1) ∧
    echoSpec [1, 0, 0] 1 (1/2) 1 = [1, 1/2, 0] := by
  refine ⟨le_refl 1, echo_fractional_delay [1, 0, 0] 1 (1/2) 1 (le_refl 1), ?_⟩
  rw [show (1 : ℕ) = 0 + 1 from rfl, echoSpec_succ]
  norm_num [echoSpec, shiftZero, List.replicate, List.take]

/-- C4 counterexample: at `delay_samples = 1/2` the integer shift is 0, the
Python slice `[0:-0]` is empty, and the numpy addition of the two blend
operands raises a broadcast error (`none`), while the claim's formula
predicts the well-defined blend `[5/4, 1/4]`. -/
theorem echo_counterexample :
    echo [1, 0] (1/2) (1/2) 1 = none ∧
    echoSpec [1, 0] (1/2) (1/2) 1 = [5/4, 1/4] ∧
    echo [1, 0] (1/2) (1/2) 1 ≠ some (echoSpec [1, 0] (1/2) (1/2) 1) := by
  have htap : echoTap [1, 0] (1/2) 1 = none := by
    unfold echoTap
    norm_num [pySliceToNeg, npPadHead, bcOp]
  have hecho : echo [1, 0] (1/2) (1/2) 1 = none := by
    rw [show (1 : ℕ) = 0 + 1 from rfl, echo_succ]
    rw [show echo [1, 0] (1/2) (1/2) 0 = some [1, 0] from rfl, Option.some_bind, htap,
      Option.none_bind]
  have hspec : echoSpec [1, 0] (1/2) (1/2) 1 = [5/4, 1/4] := by
    rw [show (1 : ℕ) = 0 + 1 from rfl, echoSpec_succ]
    norm_num [echoSpec, shiftZero, List.replicate, List.take]
  exact ⟨hecho, hspec, by rw [hecho]; exact fun h => Option.noConfusion h⟩

/-! ### Claim C3: compressor idempotence under unity gain -/

section CompressorProofs

variable {α : Type} [LinearOrderedField α]

theorem lfilter1_length (b0 b1 a1 : α) (x : List α) :
    ∀ z, (lfilter1 b0 b1 a1 z x).length = x.length := by
  induction x with
  | nil => intro z; rfl
  | cons xh xt ih => intro z; simp [lfilter1, ih]

theorem comp_env_length (dBf : α → α) (b0 b1 a1 : α) (x : List α) :
    (comp_env dBf b0 b1 a1 x).length = x.length := by
  unfold comp_env
  rw [lfilter1_length]
  simp

theorem comp2_xdB_length (dBf : α → α) (x : List α) :
    (comp2_xdB dBf x).length = x.length := by
  simp [comp2_xdB, my_clip_min]

theorem zipWith_self_map {β : Type} (f : α → α → β) :
    ∀ l : List α, List.zipWith f l l = l.map (fun a => f a a) := by
  intro l
  induction l with
  | nil => rfl
  | cons h t ih => simp [ih]

theorem zipWith_mul_ones_right :
    ∀ (x g : List α), g.length = x.length → (∀ e ∈ g, e = 1) →
      List.zipWith (fun xi gi => xi * gi) x g = x := by
  intro x
  induction x with
  | nil => intro g _ _; simp
  | cons xh xt ih =>
    intro g hlen hone
    cases g with
    | nil => simp at hlen
    | cons gh gt =>
      have h1 : gh = 1 := hone gh (List.mem_cons_self _ _)
      simp only [List.zipWith_cons_cons, h1, mul_one]
      rw [ih gt (by simpa using hlen) (fun e he => hone e (List.mem_cons_of_mem _ he))]

theorem zipWith_mul_ones_left :
    ∀ (g x : List α), g.length = x.length → (∀ e ∈ g, e = 1) →
      List.zipWith (fun gi xi => gi * xi) g x = x := by
  intro g
  induction g with
  | nil =>
    intro x hlen _
    rw [List.zipWith_nil_left]
    exact (List.length_eq_zero.mp hlen.symm).symm
  | cons gh gt ih =>
    intro x hlen hone
    cases x with
    | nil => simp at hlen
    | cons xh xt =>
      have h1 : gh = 1 := hone gh (List.mem_cons_self _ _)
      simp only [List.zipWith_cons_cons, h1, one_mul]
      rw [ih xt (by simpa using hlen) (fun e he => hone e (List.mem_cons_of_mem _ he))]

theorem smoothGain_zero (alphaA alphaR : α) :
    ∀ g : List α, (∀ e ∈ g, e = 0) → smoothGain alphaA alphaR 0 g = g.map (fun _ => 0) := by
  intro g
  induction g with
  | nil => intro _; rfl
  | cons gh gt ih =>
    intro hz
    have h1 : gh = 0 := hz gh (List.mem_cons_self _ _)
    subst h1
    simp only [smoothGain, if_neg (lt_irrefl (0 : α)), mul_zero, add_zero, List.map_cons]
    rw [ih (fun e he => hz e (List.mem_cons_of_mem _ he))]

/-- C3: for both compressor variants, when the (smoothed, respectively
clipped instantaneous) dB envelope stays strictly below the threshold,
no gain reduction happens and the output equals the input exactly.
`pow10 0 = 1` is the one fact used about the dB→linear collaborator. -/
theorem compressor_unity_gain (dBf pow10 : α → α) (b0 b1 a1 alphaA alphaR : α)
    (x : List α) (thresh ratio : α) (hpow : pow10 0 = 1) :
    ((∀ e ∈ comp_env dBf b0 b1 a1 x, e < thresh) →
      compressor dBf pow10 b0 b1 a1 x thresh ratio = x) ∧
    ((∀ e ∈ comp2_xdB dBf x, e < thresh) →
      compressor_new_fast dBf pow10 alphaA alphaR x thresh ratio = x) := by
  constructor
  · intro henv
    unfold compressor
    have hmap : (comp_env dBf b0 b1 a1 x).map
        (fun e => if thresh < e then thresh + (e - thresh) / ratio else e) =
        comp_env dBf b0 b1 a1 x := by
      have hcongr : ∀ e ∈ comp_env dBf b0 b1 a1 x,
          (if thresh < e then thresh + (e - thresh) / ratio else e) = id e := by
        intro e he
        rw [if_neg (not_lt.mpr (le_of_lt (henv e he)))]
        rfl
      rw [List.map_congr_left hcongr, List.map_id]
    rw [hmap, zipWith_self_map]
    have hgain : (comp_env dBf b0 b1 a1 x).map (fun e => pow10 ((e - e) / 20)) =
        (comp_env dBf b0 b1 a1 x).map (fun _ => (1 : α)) := by
      apply List.map_congr_left
      intro e _
      rw [sub_self, zero_div, hpow]
    rw [hgain]
    apply zipWith_mul_ones_right
    · simp [comp_env_length]
    · intro e he
      obtain ⟨a, _, hae⟩ := List.mem_map.mp he
      simpa using hae.symm
  · intro hxdB
    unfold compressor_new_fast
    have hg : gainChange_dB (comp2_xdB dBf x) thresh ratio =
        (comp2_xdB dBf x).map (fun _ => 0) := by
      unfold gainChange_dB
      apply List.map_congr_left
      intro v hv
      rw [if_neg (not_lt.mpr (le_of_lt (hxdB v hv)))]
    rw [hg, smoothGain_zero _ _ _ (by simp)]
    apply zipWith_mul_ones_left
    · simp [comp2_xdB_length]
    · intro e he
      simp only [List.map_map, List.mem_map, Function.comp] at he
      obtain ⟨v, _, hve⟩ := he
      rw [← hve]
      simp [hpow]

end CompressorProofs

/-- C3 witness: a one-sample signal with the filter at its `attack = 2`
coefficients (`b0 = b1 = 1/2`, `a1 = 0`, the exact `butter(1, 1/2)` values
since `tan(pi/4) = 1`), a constant dB collaborator at -120 dB and threshold
0 dB: both compressors return the input unchanged. -/
theorem compressor_unity_gain_witness :
    ((fun _ : ℚ => (1 : ℚ)) 0 = 1) ∧
    compressor (fun _ : ℚ => (-120 : ℚ)) (fun _ => 1) (1/2) (1/2) 0 [0] 0 2 = [0] ∧
    compressor_new_fast (fun _ : ℚ => (-120 : ℚ)) (fun _ => 1) 0 0 [0] 0 2 = [0] := by
  have henv : ∀ e ∈ comp_env (fun _ : ℚ => (-120 : ℚ)) (1/2) (1/2) 0 [0], e < 0 := by
    intro e he
    have : comp_env (fun _ : ℚ => (-120 : ℚ)) (1/2) (1/2) 0 [0] = [-120] := by
      norm_num [comp_env, lfilter1, lfilter_zi1]
    rw [this] at he
    simp at he
    rw [he]
    norm_num
  have hxdB : ∀ e ∈ comp2_xdB (fun _ : ℚ => (-120 : ℚ)) [0], e < 0 := by
    intro e he
    have : comp2_xdB (fun _ : ℚ => (-120 : ℚ)) [0] = [-96] := by
      norm_num [comp2_xdB, my_clip_min]
    rw [this] at he
    simp at he
    rw [he]
    norm_num
  have h := compressor_unity_gain (fun _ : ℚ => (-120 : ℚ)) (fun _ => 1) (1/2) (1/2) 0 0 0
    [0] 0 2 rfl
  exact ⟨rfl, h.1 henv, h.2 hxdB⟩

/-! ### Claim C5: causal silence of the pluck family -/

theorem zip_map_self {α β : Type} (f : α → β) :
    ∀ t : List α, List.zip t (t.map f) = t.map (fun a => (a, f a)) := by
  intro t
  induction t with
  | nil => rfl
  | cons h tl ih => simp [ih]

theorem zip_zipWith_map_self {α β γ : Type} (f g : α → β) (op : β → β → γ) :
    ∀ t : List α,
      List.zip t (List.zipWith op (t.map f) (t.map g)) =
        t.map (fun a => (a, op (f a) (g a))) := by
  intro t
  induction t with
  | nil => rfl
  | cons h tl ih => simp [ih, zip_map_self]

/-- C5 (amended): the pluck of signaltrain/audio.py's `gen_input_sample`
(`chooser == 2`) is exactly zero at every sample before its onset `t0`;
the pluck of helpers/audio.py is *not* silent before onset — its pre-onset
samples equal the tone sum scaled by the envelope's nonzero floor
`height_low = 0.1*rLow + 0.1` (see the counterexample). -/
theorem pluck_causal_silence {α : Type} [LinearOrderedField α] (sinf expf : α → α)
    (t : List α) :
    (∀ amp0 t0 decay freq : α,
      ∀ p ∈ List.zip t (gen_input_sample_pluck sinf expf t amp0 t0 decay freq),
        p.1 < t0 → p.2 = 0) ∧
    (∀ (tones : List (α × α × α)) (t0_fac rLow rHigh rDec : α),
      ∀ p ∈ List.zip t (pluck sinf expf t tones t0_fac rLow rHigh rDec),
        p.1 < t0_fac * t.getLastD 0 →
          p.2 = (tones.map (fun q =>
              (9/20 * q.1 + 1/2) * q.2.1 *
                sinf ((50 + 6350 * q.2.2) * (p.1 - t0_fac * t.getLastD 0)))).sum *
            (1/10 * rLow + 1/10)) := by
  constructor
  · intro amp0 t0 decay freq p hp hlt
    unfold gen_input_sample_pluck at hp
    rw [zip_map_self] at hp
    obtain ⟨a, _, rfl⟩ := List.mem_map.mp hp
    simp only at hlt ⊢
    rw [if_pos hlt]
  · intro tones t0_fac rLow rHigh rDec p hp hlt
    unfold pluck expdecay at hp
    rw [zip_zipWith_map_self] at hp
    obtain ⟨a, _, rfl⟩ := List.mem_map.mp hp
    simp only at hlt ⊢
    rw [if_pos hlt]

/-- C5 witness: the masked pluck over `t = [0, 1]` with onset `t0 = 1/2`
vanishes at the pre-onset sample `t = 0`. -/
theorem pluck_causal_silence_witness :
    (((0 : ℚ), (0 : ℚ)) ∈ List.zip [(0 : ℚ), 1]
      (gen_input_sample_pluck id id [(0 : ℚ), 1] 1 (1/2) 0 1)) ∧
    ((0 : ℚ) < 1/2) ∧ ((0 : ℚ), (0 : ℚ)).2 = 0 := by
  have hmem : ((0 : ℚ), (0 : ℚ)) ∈ List.zip [(0 : ℚ), 1]
      (gen_input_sample_pluck id id [(0 : ℚ), 1] 1 (1/2) 0 1) := by
    norm_num [gen_input_sample_pluck, List.zip]
  exact ⟨hmem, by norm_num,
    (pluck_causal_silence id id [(0 : ℚ), 1]).1 1 (1/2) 0 1 (0, 0) hmem (by norm_num)⟩

/-- `sin` of a nonzero rational is nonzero (a zero of `sin` is an integer
multiple of the irrational `π`). -/
theorem sin_rat_ne_zero (q : ℚ) (hq : q ≠ 0) : Real.sin (q : ℝ) ≠ 0 := by
  intro h
  rcases Real.sin_eq_zero_iff.mp h with ⟨n, hn⟩
  rcases eq_or_ne n 0 with rfl | h0
  · rw [Int.cast_zero, zero_mul] at hn
    exact hq (by exact_mod_cast hn.symm)
  · have hn' : ((n : ℤ) : ℝ) ≠ 0 := Int.cast_ne_zero.mpr h0
    apply irrational_pi
    refine ⟨q / (n : ℚ), ?_⟩
    push_cast
    rw [div_eq_iff hn']
    linarith [hn]

/-- C5 counterexample: a genuine helpers/audio.py `pluck` invocation
(`n_tones = 1`, draws `rAmp = 0`, `choice = 1`, `rFreq = 1/127` so
`freq = 100`, envelope draws 0, onset factor `1/2` over `t = [15/32, 1]`,
so `t0 = 1/2`): the sample at `t = 15/32 < t0` equals
`(1/2)*sin(-25/8)*(1/10) ≠ 0`, so the generator is not silent before its
onset. -/
theorem pluck_causal_silence_counterexample :
    ((15 : ℝ)/32 < (1/2) * List.getLastD [(15 : ℝ)/32, 1] 0) ∧
    (pluck Real.sin Real.exp [(15 : ℝ)/32, 1] [(0, 1, 1/127)] (1/2) 0 0 0).headD 0 ≠ 0 := by
  have hlast : List.getLastD [(15 : ℝ)/32, 1] 0 = 1 := rfl
  constructor
  · rw [hlast]
    norm_num
  · have harg : ((50 : ℝ) + 6350 * (1/127)) * ((15 : ℝ)/32 - 1/2 * 1) = ((-25/8 : ℚ) : ℝ) := by
      push_cast
      norm_num
    have hsin : Real.sin (((50 : ℝ) + 6350 * (1/127)) * ((15 : ℝ)/32 - 1/2 * 1)) ≠ 0 := by
      rw [harg]
      exact sin_rat_ne_zero (-25/8) (by norm_num)
    have hcond : ¬((15 : ℝ)/32 ≥ 1/2 * 1) := by norm_num
    unfold pluck expdecay
    rw [hlast]
    simp only [List.map_cons, List.map_nil, List.zipWith_cons_cons, List.headD_cons,
      List.sum_cons, List.sum_nil]
    rw [if_pos (by norm_num : (15 : ℝ)/32 < 1/2 * 1)]
    intro hcontra
    apply hsin
    have h9 : ((9 : ℝ)/20 * 0 + 1/2) = 1/2 := by norm_num
    nlinarith [hcontra]

end SignalTrain
